import Mathlib

/-!
Verification of the SpeakerAI analytic core against its specification.

The relevant program logic is shallowly embedded: Python floats are
modelled by rationals, Python strings by lists of characters, and the
fallible first-token extraction of name inference by an `Option` result
where `none` models a raised `IndexError`.
-/

namespace SpeakerAI

/-! ## Segmentation policy (`speakerai/audio/diarization.py`) -/

/-- Models `chr(ord("A") + idx)`. -/
def speakerChar (idx : Nat) : Char := Char.ofNat (65 + idx)

/-- Models the label string built by the diarizer. -/
def speakerLabel (idx : Nat) : String := "Speaker " ++ String.mk [speakerChar idx]

/-- Models the `DiarizationSegment` dataclass; `stop` models the field `end`. -/
structure DiarizationSegment where
  start : ℚ
  stop : ℚ
  speaker_label : String
  confidence : ℚ
  deriving DecidableEq, Repr

/-- Models the Python builtin `max` on two rationals (kernel-reducible form of
`max`). -/
def ratMax (a b : ℚ) : ℚ := if a ≤ b then b else a

lemma ratMax_eq_max (a b : ℚ) : ratMax a b = max a b := (max_def a b).symm

/-- Models the duration computed by the loop body: `max(0.0, end - start)`. -/
def duration (p : ℚ × ℚ) : ℚ := ratMax 0 (p.2 - p.1)

/-- Sum of the clamped durations of a span list. -/
def sumDur (ts : List (ℚ × ℚ)) : ℚ := (ts.map duration).sum

/-- Models the loop of `SimpleEnergyDiarizer.diarize`: `idx` is the counter
behind the label generator, `total` is `total_duration`, `segs` the segments
accumulated so far. -/
def diarizeLoop (maxDur : ℚ) :
    List (ℚ × ℚ) → Nat → ℚ → List DiarizationSegment → List DiarizationSegment
  | [], _, _, segs => segs
  | (s, e) :: rest, idx, total, segs =>
    let d := ratMax 0 (e - s)
    let total2 := total + d
    if maxDur < d ∧ segs ≠ [] then
      diarizeLoop maxDur rest (idx + 1) total2 (segs ++ [⟨s, e, speakerLabel (idx + 1), 1/2⟩])
    else if maxDur ≤ total2 then
      diarizeLoop maxDur rest (idx + 1) 0 (segs ++ [⟨s, e, speakerLabel (idx + 1), 1/2⟩])
    else
      diarizeLoop maxDur rest idx total2 (segs ++ [⟨s, e, speakerLabel idx, 1/2⟩])

/-- Models `SimpleEnergyDiarizer.diarize` with `max_duration = maxDur`. -/
def diarize (maxDur : ℚ) (timestamps : List (ℚ × ℚ)) : List DiarizationSegment :=
  if timestamps = [] then [] else diarizeLoop maxDur timestamps 0 0 []

lemma diarizeLoop_spans (maxDur : ℚ) :
    ∀ (ts : List (ℚ × ℚ)) (idx : Nat) (total : ℚ) (segs : List DiarizationSegment),
      (diarizeLoop maxDur ts idx total segs).map (fun g => (g.start, g.stop))
        = segs.map (fun g => (g.start, g.stop)) ++ ts := by
  intro ts
  induction ts with
  | nil => intro idx total segs; simp [diarizeLoop]
  | cons p rest ih =>
    intro idx total segs
    obtain ⟨s, e⟩ := p
    simp only [diarizeLoop]
    split_ifs with h1 h2 <;> rw [ih] <;> simp

lemma sumDur_cons (p : ℚ × ℚ) (ts : List (ℚ × ℚ)) :
    sumDur (p :: ts) = duration p + sumDur ts := by
  simp [sumDur]

lemma diarizeLoop_const_label (maxDur : ℚ) :
    ∀ (ts : List (ℚ × ℚ)) (idx : Nat) (total : ℚ) (segs : List DiarizationSegment),
      (∀ p ∈ ts, duration p < maxDur) →
      (∀ n : Nat, n ≤ ts.length → total + sumDur (ts.take n) < maxDur) →
      ∀ g ∈ diarizeLoop maxDur ts idx total segs,
        g ∈ segs ∨ g.speaker_label = speakerLabel idx := by
  intro ts
  induction ts with
  | nil => intro idx total segs _ _ g hg; left; simpa [diarizeLoop] using hg
  | cons p rest ih =>
    intro idx total segs h1 h2 g hg
    obtain ⟨s, e⟩ := p
    have hd : ratMax 0 (e - s) < maxDur := h1 (s, e) (by simp)
    have ht : total + ratMax 0 (e - s) < maxDur := by
      have := h2 1 (by simp)
      simpa [sumDur_cons, sumDur, duration] using this
    rw [diarizeLoop] at hg
    rw [if_neg (by push_neg; intro hlt; exact absurd hlt (not_lt_of_gt hd)),
      if_neg (not_le_of_gt ht)] at hg
    have h1r : ∀ q ∈ rest, duration q < maxDur := fun q hq => h1 q (by simp [hq])
    have h2r : ∀ n : Nat, n ≤ rest.length →
        (total + ratMax 0 (e - s)) + sumDur (rest.take n) < maxDur := by
      intro n hn
      have := h2 (n + 1) (by simpa using Nat.succ_le_succ hn)
      simpa [sumDur_cons, duration, add_assoc] using this
    rcases ih idx (total + ratMax 0 (e - s))
        (segs ++ [⟨s, e, speakerLabel idx, 1/2⟩]) h1r h2r g hg with hmem | hlab
    · rcases List.mem_append.mp hmem with hmem | hmem
      · exact Or.inl hmem
      · right
        have : g = (⟨s, e, speakerLabel idx, 1/2⟩ : DiarizationSegment) := by simpa using hmem
        rw [this]
    · exact Or.inr hlab

/-- C2: diarize returns one segment per input span, in order, carrying each
input span as its start and end, and returns the empty list on empty input. -/
theorem diarize_preserves_spans (maxDur : ℚ) (ts : List (ℚ × ℚ)) :
    (diarize maxDur ts).map (fun g => (g.start, g.stop)) = ts
      ∧ diarize maxDur [] = [] := by
  constructor
  · by_cases h : ts = []
    · simp [diarize, h]
    · rw [diarize, if_neg h, diarizeLoop_spans]
      simp
  · simp [diarize]

/-- C3 counterexample: on input `[(0, 20)]` with `max_duration = 15`, the single
emitted segment does not carry the first label `"Speaker A"`: the cumulative
branch (`total_duration >= max_duration`, here 20 ≥ 15) advances the label on
the very first utterance. -/
theorem diarize_first_label_cex :
    (diarize 15 [(0, 20)]).map (fun g => g.speaker_label) ≠ ["Speaker A"] := by
  have h : diarize 15 [(0, 20)] = [⟨0, 20, speakerLabel 1, 1/2⟩] := by
    rw [diarize, if_neg (by simp)]
    norm_num [diarizeLoop, ratMax]
  rw [h]
  decide

/-- C3 amended: on input `[(0, 20)]` with `max_duration = 15`, diarize returns a
single segment; the per-utterance branch does not fire (no segment emitted yet)
but the cumulative branch does (20 ≥ 15), so the segment carries the second
label `"Speaker B"`. -/
theorem diarize_first_label_amended :
    diarize 15 [(0, 20)] = [⟨0, 20, speakerLabel 1, 1/2⟩]
      ∧ speakerLabel 1 = "Speaker B" := by
  constructor
  · rw [diarize, if_neg (by simp)]
    norm_num [diarizeLoop, ratMax]
  · decide

/-- C4: if every clamped utterance duration stays strictly below
`max_duration` and no prefix sum of the durations reaches `max_duration`,
every segment emitted by diarize carries the initial label. -/
theorem diarize_single_label (maxDur : ℚ) (ts : List (ℚ × ℚ))
    (h1 : ∀ p ∈ ts, duration p < maxDur)
    (h2 : ∀ n : Nat, n ≤ ts.length → sumDur (ts.take n) < maxDur) :
    ∀ g ∈ diarize maxDur ts, g.speaker_label = speakerLabel 0 := by
  intro g hg
  by_cases h : ts = []
  · rw [h] at hg; simp [diarize] at hg
  · rw [diarize, if_neg h] at hg
    rcases diarizeLoop_const_label maxDur ts 0 0 [] h1 (by simpa using h2) g hg with hmem | hlab
    · simp at hmem
    · exact hlab

/-- C4 witness: two short spans with durations 2 and 2 against
`max_duration = 10`; both emitted segments carry the initial label. -/
theorem diarize_single_label_witness :
    ((diarize 10 [((0 : ℚ), 2), ((3 : ℚ), 5)]).getD 1
      ⟨0, 0, "", 0⟩).speaker_label = speakerLabel 0 := by
  have h : diarize 10 [((0 : ℚ), 2), ((3 : ℚ), 5)] =
      [⟨0, 2, speakerLabel 0, 1/2⟩, ⟨3, 5, speakerLabel 0, 1/2⟩] := by
    rw [diarize, if_neg (by simp)]
    norm_num [diarizeLoop, ratMax]
  refine diarize_single_label 10 [((0 : ℚ), 2), ((3 : ℚ), 5)] ?_ ?_ _ ?_
  · intro p hp
    fin_cases hp <;> norm_num [duration, ratMax]
  · intro n hn
    simp only [List.length_cons, List.length_nil] at hn
    interval_cases n <;> norm_num [sumDur, duration, ratMax]
  · rw [h]
    simp

/-! ## Identity matching (`speakerai/pipeline.py`, `_match_speaker`)

The loop is embedded with the similarity computation abstracted into a
parameter `score`: in the program, `score c` is the cosine similarity of the
vectorized profile features against candidate `c`'s stored feature vector.
The claims settled here concern the selection logic (threshold and
tie-breaking), which is independent of the particular similarity values. -/

/-- Models `config.FEATURE_SIMILARITY_THRESHOLD = 0.82`. -/
def FEATURE_SIMILARITY_THRESHOLD : ℚ := 82/100

/-- A row of `get_all_speakers()`: the fields of a stored speaker used by the
matching loop (id and name; the stored feature vector is consumed through the
abstracted `score`). -/
structure Candidate where
  speaker_id : Nat
  name : String
  deriving DecidableEq, Repr

/-- Models the dict `{"speaker_id": ..., "speaker_name": ..., "score": ...}`. -/
structure MatchResult where
  speaker_id : Nat
  speaker_name : String
  score : ℚ
  deriving DecidableEq, Repr

/-- Models the Python truthiness test `team_members and name not in
team_members`: a `None` or empty allow-list never skips. -/
def skipCandidate (team_members : Option (List String)) (c : Candidate) : Bool :=
  match team_members with
  | none => false
  | some l => decide (l ≠ [] ∧ c.name ∉ l)

/-- Models the loop of `_match_speaker` over the store rows, tracking
`best_score` and `best_match`. -/
def matchLoop (score : Candidate → ℚ) (team_members : Option (List String)) :
    List Candidate → ℚ → Option MatchResult → Option MatchResult
  | [], _, best => best
  | c :: rest, bestScore, best =>
    if skipCandidate team_members c then
      matchLoop score team_members rest bestScore best
    else if bestScore < score c ∧ FEATURE_SIMILARITY_THRESHOLD ≤ score c then
      matchLoop score team_members rest (score c) (some ⟨c.speaker_id, c.name, score c⟩)
    else
      matchLoop score team_members rest bestScore best

/-- Models `_match_speaker`: empty store gives no match, otherwise the loop
runs with `best_score = 0.0` and `best_match = None`. -/
def matchSpeaker (score : Candidate → ℚ) (team_members : Option (List String))
    (known : List Candidate) : Option MatchResult :=
  if known = [] then none else matchLoop score team_members known 0 none

/-- The candidates the loop does not skip, in store order. -/
def consideredCands (team_members : Option (List String)) (known : List Candidate) :
    List Candidate :=
  known.filter (fun c => !skipCandidate team_members c)

lemma matchLoop_spec (score : Candidate → ℚ) (tm : Option (List String)) :
    ∀ (cands : List Candidate) (bs : ℚ) (bm : Option MatchResult),
      (matchLoop score tm cands bs bm = bm ∧
        ∀ c ∈ consideredCands tm cands,
          score c ≤ bs ∨ score c < FEATURE_SIMILARITY_THRESHOLD)
      ∨ (∃ pre c post, consideredCands tm cands = pre ++ c :: post ∧
          matchLoop score tm cands bs bm = some ⟨c.speaker_id, c.name, score c⟩ ∧
          bs < score c ∧ FEATURE_SIMILARITY_THRESHOLD ≤ score c ∧
          (∀ x ∈ pre, score x < score c) ∧
          (∀ x ∈ post, score x ≤ score c ∨ score x < FEATURE_SIMILARITY_THRESHOLD)) := by
  intro cands
  induction cands with
  | nil =>
    intro bs bm
    left
    constructor
    · rw [matchLoop]
    · intro c hc
      simp [consideredCands] at hc
  | cons c rest ih =>
    intro bs bm
    by_cases hskip : skipCandidate tm c = true
    · have hcons : consideredCands tm (c :: rest) = consideredCands tm rest := by
        simp [consideredCands, hskip]
      rw [matchLoop, if_pos hskip]
      rw [hcons]
      exact ih bs bm
    · have hcons : consideredCands tm (c :: rest) = c :: consideredCands tm rest := by
        simp [consideredCands, List.filter_cons, hskip]
      rw [matchLoop, if_neg hskip]
      by_cases hacc : bs < score c ∧ FEATURE_SIMILARITY_THRESHOLD ≤ score c
      · rw [if_pos hacc]
        rcases ih (score c) (some ⟨c.speaker_id, c.name, score c⟩) with ⟨heq, hall⟩ | hex
        · right
          refine ⟨[], c, consideredCands tm rest, by simpa using hcons, heq, hacc.1, hacc.2,
            by simp, hall⟩
        · obtain ⟨pre, d, post, hsplit, hres, hlt, hthr, hpre, hpost⟩ := hex
          right
          refine ⟨c :: pre, d, post, by rw [hcons, hsplit]; simp, hres,
            lt_trans hacc.1 hlt, hthr, ?_, hpost⟩
          intro x hx
          rcases List.mem_cons.mp hx with hx | hx
          · rw [hx]; exact hlt
          · exact hpre x hx
      · rw [if_neg hacc]
        have hcle : score c ≤ bs ∨ score c < FEATURE_SIMILARITY_THRESHOLD := by
          rcases not_and_or.mp hacc with h | h
          · exact Or.inl (not_lt.mp h)
          · exact Or.inr (not_le.mp h)
        rcases ih bs bm with ⟨heq, hall⟩ | hex
        · left
          refine ⟨heq, ?_⟩
          intro x hx
          rw [hcons] at hx
          rcases List.mem_cons.mp hx with hx | hx
          · rw [hx]; exact hcle
          · exact hall x hx
        · obtain ⟨pre, d, post, hsplit, hres, hlt, hthr, hpre, hpost⟩ := hex
          right
          refine ⟨c :: pre, d, post, by rw [hcons, hsplit]; simp, hres, hlt, hthr, ?_, hpost⟩
          intro x hx
          rcases List.mem_cons.mp hx with hx | hx
          · rw [hx]
            rcases hcle with h | h
            · exact lt_of_le_of_lt h hlt
            · exact lt_of_lt_of_le h hthr
          · exact hpre x hx

lemma dropWhile_append_of_all {p : Candidate → Bool} :
    ∀ (pre rest : List Candidate), (∀ x ∈ pre, p x = true) →
      (pre ++ rest).dropWhile p = rest.dropWhile p := by
  intro pre
  induction pre with
  | nil => intro rest _; simp
  | cons a l ih =>
    intro rest hall
    have ha : p a = true := hall a (by simp)
    simp only [List.cons_append, List.dropWhile_cons, ha, if_true]
    exact ih rest (fun x hx => hall x (by simp [hx]))

/-- C1: whenever `_match_speaker` returns a match, the match scores at least
the 0.82 threshold, every considered candidate scores no more than it, every
considered candidate strictly before it scores strictly less (strict `>` keeps
the earlier candidate on ties), and the match is built from the first
considered candidate whose score is not below the returned score. -/
theorem matchSpeaker_threshold_first_max (score : Candidate → ℚ)
    (tm : Option (List String)) (known : List Candidate) (m : MatchResult)
    (h : matchSpeaker score tm known = some m) :
    FEATURE_SIMILARITY_THRESHOLD ≤ m.score ∧
    (consideredCands tm known).all (fun x => decide (score x ≤ m.score)) = true ∧
    ((consideredCands tm known).dropWhile (fun x => decide (score x < m.score))).head?.map
      (fun c => MatchResult.mk c.speaker_id c.name (score c)) = some m := by
  by_cases hk : known = []
  · rw [matchSpeaker, if_pos hk] at h
    exact absurd h (by simp)
  · rw [matchSpeaker, if_neg hk] at h
    rcases matchLoop_spec score tm known 0 none with ⟨heq, _⟩ | hex
    · rw [heq] at h
      exact absurd h (by simp)
    · obtain ⟨pre, c, post, hsplit, hres, _, hthr, hpre, hpost⟩ := hex
      rw [hres] at h
      have hm : m = ⟨c.speaker_id, c.name, score c⟩ := (Option.some.injEq _ _ ▸ h).symm
      have hms : m.score = score c := by rw [hm]
      refine ⟨by rw [hms]; exact hthr, ?_, ?_⟩
      · rw [List.all_eq_true]
        intro x hx
        rw [hsplit] at hx
        rcases List.mem_append.mp hx with hx | hx
        · exact decide_eq_true (le_of_lt (hms ▸ hpre x hx))
        · rcases List.mem_cons.mp hx with hx | hx
          · exact decide_eq_true (by rw [hx, hms])
          · rcases hpost x hx with hle | hlt
            · exact decide_eq_true (hms ▸ hle)
            · exact decide_eq_true (hms ▸ le_of_lt (lt_of_lt_of_le hlt hthr))
      · rw [hsplit, dropWhile_append_of_all pre (c :: post)
          (fun x hx => decide_eq_true (hms ▸ hpre x hx))]
        rw [List.dropWhile_cons]
        rw [if_neg (by simp [hms])]
        simp [hm]

/-- C1 witness: with two considered candidates scoring 0.85 then 0.9, the
returned match is the second candidate with score 0.9, and the stated
threshold / maximality / earliest-first properties hold there. -/
theorem matchSpeaker_threshold_first_max_witness :
    FEATURE_SIMILARITY_THRESHOLD ≤ (⟨2, "bob", 9/10⟩ : MatchResult).score ∧
    (consideredCands none [⟨1, "ann"⟩, ⟨2, "bob"⟩]).all
      (fun x => decide ((if x.speaker_id = 2 then (9 : ℚ)/10 else 85/100) ≤
        (⟨2, "bob", 9/10⟩ : MatchResult).score)) = true ∧
    ((consideredCands none [⟨1, "ann"⟩, ⟨2, "bob"⟩]).dropWhile
      (fun x => decide ((if x.speaker_id = 2 then (9 : ℚ)/10 else 85/100) <
        (⟨2, "bob", 9/10⟩ : MatchResult).score))).head?.map
      (fun c => MatchResult.mk c.speaker_id c.name
        (if c.speaker_id = 2 then (9 : ℚ)/10 else 85/100)) = some ⟨2, "bob", 9/10⟩ := by
  refine matchSpeaker_threshold_first_max
    (fun c => if c.speaker_id = 2 then (9 : ℚ)/10 else 85/100) none
    [⟨1, "ann"⟩, ⟨2, "bob"⟩] ⟨2, "bob", 9/10⟩ ?_
  rw [matchSpeaker, if_neg (by simp)]
  norm_num [matchLoop, skipCandidate, FEATURE_SIMILARITY_THRESHOLD]

/-- C6 counterexample: with a provided but empty allow-list, a candidate can
still be returned: Python evaluates `team_members and name not in
team_members` as falsy for the empty list, so the filter is bypassed. The
constant score 1 is realized by a candidate whose stored vector equals the
profile vector. -/
theorem matchSpeaker_empty_allow_list_cex :
    matchSpeaker (fun _ => 1) (some []) [⟨1, "bob"⟩] ≠ none := by
  have h : matchSpeaker (fun _ => 1) (some []) [⟨1, "bob"⟩] = some ⟨1, "bob", 1⟩ := by
    rw [matchSpeaker, if_neg (by simp)]
    norm_num [matchLoop, skipCandidate, FEATURE_SIMILARITY_THRESHOLD]
  rw [h]
  simp

/-- C6 amended: when the provided allow-list is non-empty, every candidate
whose name is not a member is skipped, so a returned match always carries a
name from the allow-list; the empty allow-list, however, disables the filter
entirely. -/
theorem matchSpeaker_allow_list (score : Candidate → ℚ) (l : List String)
    (hne : l ≠ []) (known : List Candidate) (m : MatchResult)
    (h : matchSpeaker score (some l) known = some m) :
    m.speaker_name ∈ l := by
  by_cases hk : known = []
  · rw [matchSpeaker, if_pos hk] at h
    exact absurd h (by simp)
  · rw [matchSpeaker, if_neg hk] at h
    rcases matchLoop_spec score (some l) known 0 none with ⟨heq, _⟩ | hex
    · rw [heq] at h
      exact absurd h (by simp)
    · obtain ⟨pre, c, post, hsplit, hres, _, _, _, _⟩ := hex
      rw [hres] at h
      have hm : m = ⟨c.speaker_id, c.name, score c⟩ := (Option.some.injEq _ _ ▸ h).symm
      have hc : c ∈ consideredCands (some l) known := by
        rw [hsplit]; simp
      have hskip : skipCandidate (some l) c = false := by
        have := List.of_mem_filter hc
        simpa using this
      have : ¬(l ≠ [] ∧ c.name ∉ l) := by
        simpa [skipCandidate] using hskip
      rcases not_and_or.mp this with h1 | h2
      · exact absurd hne h1
      · rw [hm]
        exact not_not.mp h2

/-- C6 amended witness: allow-list `["bob"]` with matching candidate `bob`
scoring 1; the returned name is in the allow-list. -/
theorem matchSpeaker_allow_list_witness :
    (⟨1, "bob", 1⟩ : MatchResult).speaker_name ∈ ["bob"] := by
  refine matchSpeaker_allow_list (fun _ => 1) ["bob"] (by simp) [⟨1, "bob"⟩]
    ⟨1, "bob", 1⟩ ?_
  rw [matchSpeaker, if_neg (by simp)]
  norm_num [matchLoop, skipCandidate, FEATURE_SIMILARITY_THRESHOLD]

/-! ## Python string primitives (ASCII fragment used by the program) -/

/-- Models the whitespace class of `str.split()` and `str.strip()`. -/
def isPySpace (c : Char) : Bool :=
  c = ' ' || c = '\t' || c = '\n' || c = '\r' || c = '\x0b' || c = '\x0c'

/-- Worker for `str.split()`: `cur` is the reversed current token. -/
def splitWsGo (cur : List Char) : List Char → List (List Char)
  | [] => if cur = [] then [] else [cur.reverse]
  | c :: cs =>
    if isPySpace c then
      if cur = [] then splitWsGo [] cs else cur.reverse :: splitWsGo [] cs
    else splitWsGo (c :: cur) cs

/-- Models `str.split()` with no separator: maximal runs of non-whitespace. -/
def pySplitWs (s : List Char) : List (List Char) := splitWsGo [] s

/-- Tests whether the first list starts the second. -/
def leadsWith : List Char → List Char → Bool
  | [], _ => true
  | _ :: _, [] => false
  | p :: ps, c :: cs => p = c && leadsWith ps cs

/-- Models `s.split(pat, 1)[1]` together with `pat in s`: the text after the
first occurrence of `pat`, or `none` when `pat` does not occur. -/
def findAfter (pat : List Char) : List Char → Option (List Char)
  | [] => if pat = [] then some [] else none
  | c :: cs =>
    if leadsWith pat (c :: cs) then some ((c :: cs).drop pat.length)
    else findAfter pat cs

/-- Models `str.strip(chars)` (and `str.strip()` with `isPySpace`): removes
matching characters from BOTH ends. -/
def pyStrip (p : Char → Bool) (s : List Char) : List Char :=
  ((s.dropWhile p).reverse.dropWhile p).reverse

/-- The characters of the literal `".,!?"` passed to `str.strip`. -/
def isStripPunct (c : Char) : Bool := c = '.' || c = ',' || c = '!' || c = '?'

def asciiIsAlpha (c : Char) : Bool := ('a' ≤ c && c ≤ 'z') || ('A' ≤ c && c ≤ 'Z')

/-- Worker for `str.title()`: the flag records whether the previous character
was a letter. -/
def titleGo : Bool → List Char → List Char
  | _, [] => []
  | prevAlpha, c :: cs =>
    (if asciiIsAlpha c then (if prevAlpha then c.toLower else c.toUpper) else c)
      :: titleGo (asciiIsAlpha c) cs

/-- Models `str.title()` on ASCII text. -/
def asciiTitle (s : List Char) : List Char := titleGo false s

/-- Models `str.lower()` on ASCII text. -/
def asciiLower (s : List Char) : List Char := s.map Char.toLower

/-! ## Name inference (`speakerai/pipeline.py`, `_infer_names`) -/

/-- The fixed phrase list `["i am", "my name is", "this is"]`, in check order. -/
def nameKeywords : List (List Char) :=
  ["i am".toList, "my name is".toList, "this is".toList]

/-- One keyword iteration of `_infer_names` on one turn: `none` models the
`IndexError` raised by `segment.split()[0]` when nothing follows the phrase. -/
def inferKeywordStep (lower : List Char) (inferred : List (List Char))
    (kw : List Char) : Option (List (List Char)) :=
  match findAfter kw lower with
  | none => some inferred
  | some rest =>
    match pySplitWs (pyStrip isPySpace rest) with
    | [] => none
    | name :: _ =>
      if name ≠ [] ∧ name ∉ inferred then some (inferred ++ [asciiTitle name])
      else some inferred

/-- Processes one turn text: lower-case it, then scan the three phrases in
order, accumulating inferred names. -/
def inferTurn (inferred : List (List Char)) (text : List Char) :
    Option (List (List Char)) :=
  nameKeywords.foldlM (inferKeywordStep (asciiLower text)) inferred

/-- The turn loop of `_infer_names`. -/
def inferNamesL : List (List Char) → List (List Char) → Option (List (List Char))
  | acc, [] => some acc
  | acc, t :: ts =>
    match inferTurn acc t with
    | none => none
    | some acc2 => inferNamesL acc2 ts

/-- Models `_infer_names` on the texts of the turns; `none` models a raised
`IndexError`. -/
def inferNames (turns : List String) : Option (List String) :=
  (inferNamesL [] (turns.map String.toList)).map (fun l => l.map String.mk)

lemma inferKeywordStep_found (lower : List Char) (inferred : List (List Char))
    (kw rest name : List Char) (tail : List (List Char))
    (hfind : findAfter kw lower = some rest)
    (hsplit : pySplitWs (pyStrip isPySpace rest) = name :: tail)
    (hname : name ≠ []) (hmem : name ∉ inferred) :
    inferKeywordStep lower inferred kw = some (inferred ++ [asciiTitle name]) := by
  simp [inferKeywordStep, hfind, hsplit, hname, hmem]

lemma inferKeywordStep_notfound (lower : List Char) (inferred : List (List Char))
    (kw : List Char) (hfind : findAfter kw lower = none) :
    inferKeywordStep lower inferred kw = some inferred := by
  simp [inferKeywordStep, hfind]

lemma inferNamesL_cons_some (acc : List (List Char)) (x : List Char)
    (ts : List (List Char)) (acc2 : List (List Char))
    (h : inferTurn acc x = some acc2) :
    inferNamesL acc (x :: ts) = inferNamesL acc2 ts := by
  simp [inferNamesL, h]

lemma inferNamesL_nil (acc : List (List Char)) : inferNamesL acc [] = some acc := rfl

/-- C7: two turns both saying `"my name is alice"` produce the duplicate list
`["Alice", "Alice"]`: the presence check compares the lower-cased token
`"alice"` against the stored title-cased `"Alice"`, so the deduplication
intended by the check (and stated by the spec) never fires. -/
theorem inferNames_duplicate :
    inferNames ["my name is alice", "my name is alice"] = some ["Alice", "Alice"]
      ∧ ¬(["Alice", "Alice"] : List String).Nodup := by
  constructor
  · decide
  · decide

/-- C8 counterexample: the single turn `"i am bob and my name is carol"`
contributes two inferred names, not at most one: the phrase scan has no early
exit, so each matching phrase contributes. -/
theorem inferNames_two_phrases_cex :
    ¬(((inferNames ["i am bob and my name is carol"]).getD []).length ≤ 1) := by
  decide

/-- C8 amended: the phrase scan has no early exit, so for every turn whose
lower-cased text contains both `"i am"` (followed by a token `n1`) and
`"my name is"` (followed by a token `n2`), does not contain `"this is"`, and
whose tokens pass the presence check (`n2` differing from the title-cased
`n1`), the turn contributes BOTH names — the first-checked phrase's token
first — not at most one. -/
theorem inferNames_two_phrases_amended (t : String) (r1 r2 n1 n2 : List Char)
    (rest1 rest2 : List (List Char))
    (h1 : findAfter ("i am".toList) (asciiLower t.toList) = some r1)
    (h2 : pySplitWs (pyStrip isPySpace r1) = n1 :: rest1)
    (h3 : findAfter ("my name is".toList) (asciiLower t.toList) = some r2)
    (h4 : pySplitWs (pyStrip isPySpace r2) = n2 :: rest2)
    (h5 : findAfter ("this is".toList) (asciiLower t.toList) = none)
    (hn1 : n1 ≠ []) (hn2 : n2 ≠ []) (hne : n2 ≠ asciiTitle n1) :
    inferNames [t] = some [String.mk (asciiTitle n1), String.mk (asciiTitle n2)] := by
  have hstep1 : inferKeywordStep (asciiLower t.toList) [] ("i am".toList)
      = some ([] ++ [asciiTitle n1]) :=
    inferKeywordStep_found (asciiLower t.toList) [] ("i am".toList) r1 n1 rest1
      h1 h2 hn1 (by simp)
  have hstep2 : inferKeywordStep (asciiLower t.toList) [asciiTitle n1] ("my name is".toList)
      = some ([asciiTitle n1] ++ [asciiTitle n2]) :=
    inferKeywordStep_found (asciiLower t.toList) [asciiTitle n1] ("my name is".toList)
      r2 n2 rest2 h3 h4 hn2 (by simpa using hne)
  have hstep3 : inferKeywordStep (asciiLower t.toList) [asciiTitle n1, asciiTitle n2]
      ("this is".toList) = some [asciiTitle n1, asciiTitle n2] :=
    inferKeywordStep_notfound (asciiLower t.toList) [asciiTitle n1, asciiTitle n2]
      ("this is".toList) h5
  have hturn : inferTurn [] (t.toList) = some [asciiTitle n1, asciiTitle n2] := by
    unfold inferTurn nameKeywords
    simp only [List.foldlM_cons, List.foldlM_nil, hstep1, Option.bind_eq_bind,
      Option.some_bind, List.nil_append]
    simp only [hstep2, Option.some_bind, List.cons_append, List.nil_append]
    simp only [hstep3, Option.some_bind, Option.pure_def]
  unfold inferNames
  simp only [List.map_cons, List.map_nil]
  rw [inferNamesL_cons_some [] (t.toList) [] _ hturn, inferNamesL_nil]
  simp only [Option.map_some', List.map_cons, List.map_nil]

/-- C8 amended witness: the turn `"i am bob and my name is carol"` contains
both phrases with tokens `bob` and `carol`, and contributes both names in
check order. -/
theorem inferNames_two_phrases_amended_witness :
    inferNames ["i am bob and my name is carol"] = some ["Bob", "Carol"] := by
  have h := inferNames_two_phrases_amended "i am bob and my name is carol"
    (" bob and my name is carol".toList) (" carol".toList)
    ("bob".toList) ("carol".toList)
    ["and".toList, "my".toList, "name".toList, "is".toList, "carol".toList] []
    (by decide) (by decide) (by decide) (by decide) (by decide)
    (by decide) (by decide) (by decide)
  rw [h]
  decide

/-- C10: a turn whose text ends exactly with a phrase and nothing after it
makes `_infer_names` fault: `segment.split()[0]` raises `IndexError` on the
empty remainder (modelled by `none`), so name inference is not total. -/
theorem inferNames_raises_on_trailing_phrase :
    inferNames ["i am"] = none := by
  decide

/-! ## Keyword emotion scores (`speakerai/audio/psychometrics.py`) -/

/-- Models `" ".join(texts)`. -/
def joinSpace (texts : List (List Char)) : List Char := List.intercalate [' '] texts

/-- The five fixed emotion categories of `BASIC_EMOTION_KEYWORDS`. -/
inductive Emotion where
  | excited
  | angry
  | happy
  | sad
  | fun_
  deriving DecidableEq, Repr

/-- Models `BASIC_EMOTION_KEYWORDS` (`fun_` models the key `"fun"`). -/
def emotionKeywords : Emotion → List (List Char)
  | .excited => ["excited".toList, "thrilled".toList, "pumped".toList, "energetic".toList]
  | .angry => ["angry".toList, "furious".toList, "frustrated".toList, "mad".toList]
  | .happy => ["happy".toList, "glad".toList, "pleased".toList, "delighted".toList]
  | .sad => ["sad".toList, "upset".toList, "down".toList, "unhappy".toList]
  | .fun_ => ["fun".toList, "enjoy".toList, "laugh".toList, "joke".toList, "humor".toList]

/-- The token multiset of `_keyword_scores`:
`token.strip(".,!?").lower() for token in combined_text.split()`. -/
def keywordTokens (s : List Char) : List (List Char) :=
  (pySplitWs s).map (fun t => asciiLower (pyStrip isStripPunct t))

/-- Models `_keyword_scores` for one category: the `Counter` lookup summed
over the category's keyword set, converted to a float. -/
def keywordScore (s : List Char) (m : Emotion) : ℚ :=
  (((emotionKeywords m).map (fun kw => (keywordTokens s).count kw)).sum : ℕ)

/-- The keyword pass as invoked by `analyze`: scores computed on the
space-joined texts. -/
def analyzeKeywordScore (texts : List String) (m : Emotion) : ℚ :=
  keywordScore (joinSpace (texts.map String.toList)) m

/-- Following the claim wording only (NOT the code): tokens stripped of
trailing `.,!?` characters only, then lower-cased. -/
def specTrailingTokens (s : List Char) : List (List Char) :=
  (pySplitWs s).map (fun t => asciiLower ((t.reverse.dropWhile isStripPunct).reverse))

/-- Following the claim wording only (NOT the code): the count of
trailing-stripped tokens lying in the category's keyword set. -/
def specKeywordScore (texts : List String) (m : Emotion) : ℚ :=
  (((specTrailingTokens (joinSpace (texts.map String.toList))).countP
    (fun t => decide (t ∈ emotionKeywords m))) : ℕ)

lemma indicator_sum (t : List Char) :
    ∀ kws : List (List Char), kws.Nodup →
      (kws.map (fun kw => if t == kw then 1 else 0)).sum = (if t ∈ kws then 1 else 0) := by
  intro kws
  induction kws with
  | nil => intro _; simp
  | cons k ks ih =>
    intro hnd
    rw [List.nodup_cons] at hnd
    by_cases htk : t = k
    · subst htk
      have hz : ((ks.map (fun kw => if t == kw then 1 else 0)).sum : ℕ) = 0 := by
        apply List.sum_eq_zero
        intro x hx
        obtain ⟨kw, hkw, hval⟩ := List.mem_map.mp hx
        have : ¬(t == kw) = true := by
          intro hbeq
          exact hnd.1 (beq_iff_eq.mp hbeq ▸ hkw)
        rw [← hval, if_neg this]
      rw [List.map_cons, List.sum_cons, if_pos (beq_self_eq_true t), hz]
      simp
    · have hne : ¬(t == k) = true := by
        intro hbeq
        exact htk (beq_iff_eq.mp hbeq)
      simp only [List.map_cons, List.sum_cons, if_neg hne, zero_add, ih hnd.2,
        List.mem_cons]
      rw [if_congr (iff_of_eq (propext ⟨fun h => h.resolve_left htk, Or.inr⟩)) rfl rfl]

lemma sum_counts_eq_countP (kws : List (List Char)) (hnd : kws.Nodup)
    (toks : List (List Char)) :
    (kws.map (fun kw => toks.count kw)).sum
      = toks.countP (fun t => decide (t ∈ kws)) := by
  induction toks with
  | nil => simp
  | cons t ts ih =>
    simp_rw [List.countP_cons, List.count_cons, List.sum_map_add]
    rw [ih, indicator_sum t kws hnd]
    simp

/-- C9 counterexample: on the single text `"!happy"`, the code's score for
`happy` is 1 while the claim's trailing-only stripping predicts 0: Python
`str.strip` removes the characters from both ends, so the leading `!` is
removed and the token counts. -/
theorem keywordScore_leading_punct_cex :
    analyzeKeywordScore ["!happy"] Emotion.happy ≠ specKeywordScore ["!happy"] Emotion.happy := by
  have h1 : ((emotionKeywords Emotion.happy).map
      (fun kw => (keywordTokens (joinSpace (["!happy"].map String.toList))).count kw)).sum
        = 1 := by decide
  have h2 : ((specTrailingTokens (joinSpace (["!happy"].map String.toList))).countP
      (fun t => decide (t ∈ emotionKeywords Emotion.happy))) = 0 := by decide
  rw [analyzeKeywordScore, keywordScore, specKeywordScore, h1, h2]
  norm_num

/-- C9 amended: each category score equals the number of tokens — whitespace
split, stripped of `.,!?` at BOTH ends, lower-cased — that belong to the
category's keyword set (the keyword sets are duplicate-free, so the summed
`Counter` lookups coincide with a membership count). -/
theorem keywordScore_counts_membership (texts : List String) (m : Emotion) :
    analyzeKeywordScore texts m =
      ((keywordTokens (joinSpace (texts.map String.toList))).countP
        (fun t => decide (t ∈ emotionKeywords m)) : ℕ) := by
  have hnd : (emotionKeywords m).Nodup := by cases m <;> decide
  rw [analyzeKeywordScore, keywordScore,
    sum_counts_eq_countP (emotionKeywords m) hnd]

/-! ## Speaking rate (`SpeakerAI-main/speakerai/audio/features.py`) -/

/-- Models `sum(len(text.split()) for text in transcript_texts)`. -/
def totalWords (texts : List String) : ℕ :=
  (texts.map (fun t => (pySplitWs t.toList).length)).sum

/-- Models `FeatureExtractor.compute_speaking_rate`. -/
def compute_speaking_rate (texts : List String) (dur : ℚ) : ℚ :=
  if dur ≤ 0 then 0 else (totalWords texts : ℚ) / (dur / 60)

/-- Models the call in `extract_features`:
`compute_speaking_rate(transcript_texts, max(1.0, end - start))`. -/
def extractSpeakingRate (texts : List String) (start stop : ℚ) : ℚ :=
  compute_speaking_rate texts (ratMax 1 (stop - start))

/-- C5 counterexample: for the zero-duration span `(0, 0)` and the single
text `"hello world"`, feature extraction produces speaking rate
`2 / (1/60) = 120`, not the 0.0 the claim states for non-positive spans: the
clamp `max(1.0, end - start)` makes the guard in `compute_speaking_rate`
unreachable from `extract_features`. -/
theorem extractSpeakingRate_zero_span_cex :
    extractSpeakingRate ["hello world"] 0 0 ≠ 0 := by
  have hw : totalWords ["hello world"] = 2 := by decide
  rw [extractSpeakingRate, compute_speaking_rate]
  norm_num [ratMax, hw]

/-- C5 amended: the speaking rate produced by feature extraction always
equals `total_words * 60 / max(1.0, end - start)`: the duration passed down
is clamped to at least 1 second (so the `<= 0` guard of
`compute_speaking_rate` never fires there), and the divisor is the clamped
duration converted to minutes without any further clamping. -/
theorem extractSpeakingRate_formula (texts : List String) (start stop : ℚ) :
    extractSpeakingRate texts start stop
      = (totalWords texts : ℚ) * 60 / ratMax 1 (stop - start) := by
  have h1 : (1 : ℚ) ≤ ratMax 1 (stop - start) := by
    rw [ratMax]
    split_ifs with h
    · exact h
    · exact le_refl 1
  have h0 : ¬(ratMax 1 (stop - start) ≤ 0) :=
    not_le.mpr (lt_of_lt_of_le one_pos h1)
  rw [extractSpeakingRate, compute_speaking_rate, if_neg h0, div_div_eq_mul_div]

end SpeakerAI
